import Mathlib

/-!
Verification of the core machinery of `src/sage/geometry/polyhedron/library.py`:
the zero-sum projection engine (`zero_sum_projection`, `project_points`), the
orbit-expansion pattern used by the polytope recipes, the arithmetic-domain
selection of `icosahedron`, and the input validation of `regular_polygon`.

Exact arithmetic is modelled over `ℚ` (coordinates) and `ℝ` (normalized
projection entries, trigonometric vertex coordinates).
-/

namespace SageLib

/-- Dot product of two coordinate lists (truncating at the shorter one),
as used by sage vectors. -/
def dotL {α : Type} [CommRing α] : List α → List α → α
  | a :: v, b :: w => a * b + dotL v w
  | _, _ => 0

/-- Componentwise difference of two coordinate lists. -/
def subL {α : Type} [CommRing α] : List α → List α → List α
  | a :: v, b :: w => (a - b) :: subL v w
  | _, _ => []

/-- Squared Euclidean norm of a coordinate list. -/
def sqNormL {α : Type} [CommRing α] (v : List α) : α := dotL v v

/-- Matrix-vector product: one dot product per row. -/
def matVecL {α : Type} [CommRing α] (m : List (List α)) (x : List α) : List α :=
  m.map (fun r => dotL r x)

/-- Cast a rational coordinate list into `ℝ`. -/
def castList (v : List ℚ) : List ℝ := v.map (fun q : ℚ => (q : ℝ))

/-- Euclidean distance between two real coordinate lists. -/
noncomputable def euclDist (v w : List ℝ) : ℝ := Real.sqrt (sqNormL (subL v w))

/-- The unnormalized basis row used by `zero_sum_projection`
(`library.py` line 109): `i` copies of `1`, one copy of `-i`,
and `d-i-1` copies of `0`. -/
def basisRow (d i : ℕ) : List ℚ :=
  List.replicate i 1 ++ [-(i : ℚ)] ++ List.replicate (d - i - 1) 0

/-- The list of unnormalized basis rows, for `i` in `range(1, d)`. -/
def zsBasis (d : ℕ) : List (List ℚ) :=
  (List.range' 1 (d - 1)).map (basisRow d)

/-- `zero_sum_projection(d)` (`library.py` lines 77-110): each basis row
divided by its Euclidean norm. -/
noncomputable def zero_sum_projection (d : ℕ) : List (List ℝ) :=
  (zsBasis d).map (fun v => v.map (fun x : ℚ => (x : ℝ) / Real.sqrt ((sqNormL v : ℚ) : ℝ)))

/-- `project_points` (`library.py` lines 112-175): empty input yields the empty
list; otherwise every point is multiplied by the projection matrix built from
the dimension of the first point. -/
noncomputable def project_points (points : List (List ℚ)) : List (List ℝ) :=
  match points with
  | [] => []
  | p :: rest =>
    (p :: rest).map (fun v => matVecL (zero_sum_projection p.length) (castList v))

/-- The rational quadratic form computed by the projection: the sum over the
basis rows of `(row · x)^2 / ‖row‖^2`. -/
def zsQuad (x : List ℚ) : ℚ :=
  ((zsBasis x.length).map (fun r => dotL r x ^ 2 / sqNormL r)).sum

/-- C9: `project_points` called with no points returns the empty list, without
constructing a projection matrix and without any error. -/
theorem project_points_empty : project_points [] = [] := rfl

theorem dotL_nil_right {α : Type} [CommRing α] (v : List α) : dotL v [] = 0 := by
  cases v <;> rfl

theorem dotL_concat {α : Type} [CommRing α] :
    ∀ (r y : List α) (c a : α), r.length = y.length →
      dotL (r ++ [c]) (y ++ [a]) = dotL r y + c * a := by
  intro r
  induction r with
  | nil =>
    intro y c a h
    have : y = [] := List.length_eq_zero.mp h.symm
    subst this
    simp [dotL]
  | cons b r ih =>
    intro y c a h
    cases y with
    | nil => simp at h
    | cons b' y' =>
      have h' : r.length = y'.length := by simpa using h
      show b * b' + dotL (r ++ [c]) (y' ++ [a]) = b * b' + dotL r y' + c * a
      rw [ih y' c a h']
      ring

theorem dotL_replicate_one {α : Type} [CommRing α] (y : List α) :
    dotL (List.replicate y.length 1) y = y.sum := by
  induction y with
  | nil => rfl
  | cons a y ih => simp [List.replicate_succ, dotL, ih]

theorem sqNormL_concat {α : Type} [CommRing α] (y : List α) (a : α) :
    sqNormL (y ++ [a]) = sqNormL y + a * a :=
  dotL_concat y y a a rfl

theorem sqNormL_append {α : Type} [CommRing α] :
    ∀ u v : List α, sqNormL (u ++ v) = sqNormL u + sqNormL v := by
  intro u
  induction u with
  | nil => intro v; simp [sqNormL, dotL]
  | cons a u ih =>
    intro v
    show a * a + dotL (u ++ v) (u ++ v) = (a * a + dotL u u) + dotL v v
    have := ih v
    simp only [sqNormL] at this
    rw [this]
    ring

theorem sqNormL_replicate_one (n : ℕ) :
    sqNormL (List.replicate n (1 : ℚ)) = n := by
  induction n with
  | zero => rfl
  | succ m ih => simp [List.replicate_succ, sqNormL, dotL] at *; rw [ih]; ring

theorem sqNormL_replicate_zero {α : Type} [CommRing α] (n : ℕ) :
    sqNormL (List.replicate n (0 : α)) = 0 := by
  induction n with
  | zero => rfl
  | succ m ih => simpa [List.replicate_succ, sqNormL, dotL] using ih

theorem sqNormL_basisRow (d i : ℕ) :
    sqNormL (basisRow d i) = (i : ℚ) + (i : ℚ) ^ 2 := by
  unfold basisRow
  rw [sqNormL_append, sqNormL_append, sqNormL_replicate_one, sqNormL_replicate_zero]
  simp [sqNormL, dotL]
  ring

theorem basisRow_length (d i : ℕ) (h : i < d) : (basisRow d i).length = d := by
  simp [basisRow]
  omega

theorem basisRow_succ (d i : ℕ) (h : i < d) :
    basisRow (d + 1) i = basisRow d i ++ [0] := by
  unfold basisRow
  have h1 : d + 1 - i - 1 = (d - i - 1) + 1 := by omega
  rw [h1, List.replicate_succ' (d - i - 1) (0 : ℚ)]
  simp [List.append_assoc]

theorem dotL_basisRow_concat (d i : ℕ) (y : List ℚ) (a : ℚ)
    (hi : i < d) (hy : y.length = d) :
    dotL (basisRow (d + 1) i) (y ++ [a]) = dotL (basisRow d i) y := by
  rw [basisRow_succ d i hi,
    dotL_concat (basisRow d i) y 0 a (by rw [basisRow_length d i hi, hy])]
  ring

theorem dotL_basisRow_last (d : ℕ) (y : List ℚ) (a : ℚ) (hy : y.length = d) :
    dotL (basisRow (d + 1) d) (y ++ [a]) = y.sum - (d : ℚ) * a := by
  unfold basisRow
  have h1 : d + 1 - d - 1 = 0 := by omega
  rw [h1]
  simp only [List.replicate_zero, List.append_nil]
  rw [dotL_concat (List.replicate d 1) y (-(d : ℚ)) a (by simp [hy])]
  rw [← hy, dotL_replicate_one]
  ring

/-- The key algebraic identity behind `zero_sum_projection`: summing
`(row · x)^2 / ‖row‖^2` over the basis rows recovers `‖x‖^2 - (Σ x)^2 / d`. -/
theorem zsQuad_eq (x : List ℚ) :
    zsQuad x = sqNormL x - x.sum ^ 2 / x.length := by
  induction x using List.reverseRecOn with
  | nil => simp [zsQuad, zsBasis, sqNormL, dotL]
  | append_singleton y a ih =>
    cases y with
    | nil =>
      simp [zsQuad, zsBasis, sqNormL, dotL]
      ring
    | cons b y' =>
      set y := b :: y' with hy
      set d := y.length with hd
      obtain ⟨e, he⟩ : ∃ e, d = e + 1 := ⟨y'.length, by simp [hy, hd]⟩
      have hlen : (y ++ [a]).length = d + 1 := by simp [hd]
      have hzq : zsQuad (y ++ [a])
          = (((List.range' 1 d).map (basisRow (d + 1))).map
              (fun r => dotL r (y ++ [a]) ^ 2 / sqNormL r)).sum := by
        simp [zsQuad, zsBasis, hlen]
      rw [hzq, List.map_map]
      have hsplit : List.range' 1 d = List.range' 1 e ++ [d] := by
        rw [he, List.range'_1_concat 1 e, Nat.add_comm 1 e]
      rw [hsplit, List.map_append, List.sum_append]
      have hmap : (List.range' 1 e).map
            ((fun r => dotL r (y ++ [a]) ^ 2 / sqNormL r) ∘ basisRow (d + 1))
          = (List.range' 1 e).map
            ((fun r => dotL r y ^ 2 / sqNormL r) ∘ basisRow d) := by
        apply List.map_congr_left
        intro i hi
        rw [List.mem_range'_1] at hi
        have hid : i < d := by omega
        simp only [Function.comp_apply]
        rw [dotL_basisRow_concat d i y a hid hd.symm,
          sqNormL_basisRow (d + 1) i, sqNormL_basisRow d i]
      rw [hmap]
      have hzqy : ((List.range' 1 e).map
            ((fun r => dotL r y ^ 2 / sqNormL r) ∘ basisRow d)).sum = zsQuad y := by
        simp [zsQuad, zsBasis, ← hd, he, List.map_map]
      rw [hzqy, ih]
      simp only [List.map_cons, List.map_nil, List.sum_cons, List.sum_nil, add_zero,
        Function.comp_apply]
      rw [dotL_basisRow_last d y a hd.symm, sqNormL_basisRow (d + 1) d,
        sqNormL_concat, List.sum_append]
      simp only [List.sum_cons, List.sum_nil, add_zero, List.length_append,
        List.length_singleton, ← hd]
      have hd0 : (0 : ℚ) < (d : ℚ) := by
        have : 0 < d := by omega
        exact_mod_cast this
      have hne1 : ((d : ℚ)) ≠ 0 := ne_of_gt hd0
      have hne2 : ((d : ℚ)) + ((d : ℚ)) ^ 2 ≠ 0 := by nlinarith
      have hne3 : (((d : ℕ) : ℚ)) + 1 ≠ 0 := by positivity
      push_cast
      field_simp
      ring

theorem sqNormL_nonneg (v : List ℚ) : 0 ≤ sqNormL v := by
  induction v with
  | nil => exact le_refl 0
  | cons a w ih =>
    show 0 ≤ a * a + dotL w w
    exact add_nonneg (mul_self_nonneg a) ih

theorem subL_length {α : Type} [CommRing α] :
    ∀ v w : List α, (subL v w).length = min v.length w.length := by
  intro v
  induction v with
  | nil => intro w; cases w <;> simp [subL]
  | cons a v ih =>
    intro w
    cases w with
    | nil => simp [subL]
    | cons b w => simp [subL, ih w]; omega

theorem subL_sum {α : Type} [CommRing α] :
    ∀ v w : List α, v.length = w.length → (subL v w).sum = v.sum - w.sum := by
  intro v
  induction v with
  | nil =>
    intro w h
    have : w = [] := List.length_eq_zero.mp h.symm
    subst this
    simp [subL]
  | cons a v ih =>
    intro w h
    cases w with
    | nil => simp at h
    | cons b w =>
      have h' : v.length = w.length := by simpa using h
      simp only [subL, List.sum_cons, ih w h']
      ring

theorem dotL_cast (v w : List ℚ) :
    dotL (castList v) (castList w) = ((dotL v w : ℚ) : ℝ) := by
  induction v generalizing w with
  | nil => simp [castList, dotL]
  | cons a v ih =>
    cases w with
    | nil => simp [castList, dotL]
    | cons b w =>
      show (a : ℝ) * (b : ℝ) + dotL (castList v) (castList w)
          = ((a * b + dotL v w : ℚ) : ℝ)
      rw [ih w]
      push_cast
      ring

theorem sqNormL_cast (v : List ℚ) :
    sqNormL (castList v) = ((sqNormL v : ℚ) : ℝ) := dotL_cast v v

theorem subL_cast (v w : List ℚ) :
    subL (castList v) (castList w) = castList (subL v w) := by
  induction v generalizing w with
  | nil => cases w <;> simp [castList, subL]
  | cons a v ih =>
    cases w with
    | nil => simp [castList, subL]
    | cons b w =>
      show ((a : ℝ) - (b : ℝ)) :: subL (castList v) (castList w)
          = castList ((a - b) :: subL v w)
      rw [ih w]
      simp [castList]

theorem dotL_scaled (c : ℝ) (v x : List ℚ) :
    dotL (v.map (fun q : ℚ => (q : ℝ) / c)) (castList x) = ((dotL v x : ℚ) : ℝ) / c := by
  induction v generalizing x with
  | nil => simp [dotL]
  | cons a v ih =>
    cases x with
    | nil =>
      show (0 : ℝ) = ((dotL (a :: v) ([] : List ℚ) : ℚ) : ℝ) / c
      rw [dotL_nil_right]
      simp
    | cons b x =>
      show (a : ℝ) / c * (b : ℝ) + dotL (v.map (fun q : ℚ => (q : ℝ) / c)) (castList x)
          = ((a * b + dotL v x : ℚ) : ℝ) / c
      rw [ih x]
      push_cast
      ring

theorem dotL_subL_right {α : Type} [CommRing α] :
    ∀ (r x y : List α), x.length = y.length →
      dotL r (subL x y) = dotL r x - dotL r y := by
  intro r
  induction r with
  | nil => intro x y _; simp [dotL]
  | cons a r ih =>
    intro x y h
    cases x with
    | nil =>
      have : y = [] := List.length_eq_zero.mp h.symm
      subst this
      simp [subL, dotL]
    | cons b x =>
      cases y with
      | nil => simp at h
      | cons b' y =>
        have h' : x.length = y.length := by simpa using h
        show a * (b - b') + dotL r (subL x y) = (a * b + dotL r x) - (a * b' + dotL r y)
        rw [ih x y h']
        ring

theorem matVecL_subL {α : Type} [CommRing α] (m : List (List α)) (x y : List α)
    (h : x.length = y.length) :
    subL (matVecL m x) (matVecL m y) = matVecL m (subL x y) := by
  induction m with
  | nil => rfl
  | cons r m ih =>
    simp only [matVecL, List.map_cons, subL]
    rw [← dotL_subL_right r x y h]
    have := ih
    simp only [matVecL] at this
    rw [this]

theorem sqNormL_matVecL {α : Type} [CommRing α] (m : List (List α)) (x : List α) :
    sqNormL (matVecL m x) = (m.map (fun r => dotL r x ^ 2)).sum := by
  induction m with
  | nil => rfl
  | cons r m ih =>
    show dotL r x * dotL r x + sqNormL (matVecL m x)
        = dotL r x ^ 2 + (m.map (fun r => dotL r x ^ 2)).sum
    rw [ih]
    ring

theorem sum_cast (l : List ℚ) : ((l.sum : ℚ) : ℝ) = (castList l).sum := by
  induction l with
  | nil => simp [castList]
  | cons a l ih =>
    show ((a + l.sum : ℚ) : ℝ) = (castList (a :: l)).sum
    rw [Rat.cast_add, ih]
    simp [castList]

/-- The squared norm of the projected image of a rational point is the rational
quadratic form `zsQuad`. -/
theorem proj_sqNorm (x : List ℚ) :
    sqNormL (matVecL (zero_sum_projection x.length) (castList x))
      = ((zsQuad x : ℚ) : ℝ) := by
  rw [sqNormL_matVecL, zero_sum_projection, List.map_map]
  have hrow : ∀ v : List ℚ,
      dotL (v.map (fun q : ℚ => (q : ℝ) / Real.sqrt ((sqNormL v : ℚ) : ℝ))) (castList x) ^ 2
        = (((dotL v x ^ 2 / sqNormL v : ℚ) : ℝ)) := by
    intro v
    rw [dotL_scaled, div_pow, Real.sq_sqrt (by exact_mod_cast sqNormL_nonneg v)]
    push_cast
    ring
  have : (zsBasis x.length).map
        ((fun r => dotL r (castList x) ^ 2) ∘
          fun v => v.map (fun q : ℚ => (q : ℝ) / Real.sqrt ((sqNormL v : ℚ) : ℝ)))
      = (zsBasis x.length).map
        (fun v => ((dotL v x ^ 2 / sqNormL v : ℚ) : ℝ)) := by
    apply List.map_congr_left
    intro v _
    simpa using hrow v
  rw [this, zsQuad, sum_cast]
  unfold castList
  rw [List.map_map]
  apply congrArg List.sum
  apply List.map_congr_left
  intro v _
  simp only [Function.comp_apply]

/-- C1: for every dimension `d ≥ 2` and every pair of `d`-dimensional points
`p, q` with equal coordinate sums, `project_points` maps them through the
matrix `zero_sum_projection d`, and the Euclidean distance between the two
images equals the Euclidean distance between `p` and `q` exactly. -/
theorem project_points_isometry (d : ℕ) (p q : List ℚ)
    (hd : 2 ≤ d) (hp : p.length = d) (hq : q.length = d) (hsum : p.sum = q.sum) :
    project_points [p, q]
        = [matVecL (zero_sum_projection d) (castList p),
           matVecL (zero_sum_projection d) (castList q)] ∧
    euclDist (matVecL (zero_sum_projection d) (castList p))
        (matVecL (zero_sum_projection d) (castList q))
      = euclDist (castList p) (castList q) := by
  constructor
  · simp [project_points, hp]
  · unfold euclDist
    have hlen : (castList p).length = (castList q).length := by
      simp [castList, hp, hq]
    rw [matVecL_subL _ _ _ hlen, subL_cast]
    have hx : (subL p q).length = d := by
      rw [subL_length, hp, hq]
      omega
    have h1 : sqNormL (matVecL (zero_sum_projection d) (castList (subL p q)))
        = ((zsQuad (subL p q) : ℚ) : ℝ) := by
      rw [← hx]
      exact proj_sqNorm (subL p q)
    have hzs : zsQuad (subL p q) = sqNormL (subL p q) := by
      rw [zsQuad_eq, subL_sum p q (by rw [hp, hq]), hsum, sub_self]
      simp
    rw [h1, sqNormL_cast, hzs]

/-- Witness for C1 at `d = 2`, `p = [1, 2]`, `q = [2, 1]`. -/
theorem project_points_isometry_witness :
    2 ≤ 2 ∧ ([(1 : ℚ), 2]).length = 2 ∧ ([(2 : ℚ), 1]).length = 2 ∧
      ([(1 : ℚ), 2]).sum = ([(2 : ℚ), 1]).sum ∧
      (project_points [[(1 : ℚ), 2], [(2 : ℚ), 1]]
          = [matVecL (zero_sum_projection 2) (castList [(1 : ℚ), 2]),
             matVecL (zero_sum_projection 2) (castList [(2 : ℚ), 1])] ∧
        euclDist (matVecL (zero_sum_projection 2) (castList [(1 : ℚ), 2]))
            (matVecL (zero_sum_projection 2) (castList [(2 : ℚ), 1]))
          = euclDist (castList [(1 : ℚ), 2]) (castList [(2 : ℚ), 1])) :=
  ⟨by decide, rfl, rfl, by simp [add_comm],
    project_points_isometry 2 [1, 2] [2, 1] (by decide) rfl rfl (by simp [add_comm])⟩

theorem sqNormL_scaledRow (c : ℝ) (v : List ℚ) :
    sqNormL (v.map (fun q : ℚ => (q : ℝ) / c)) = ((sqNormL v : ℚ) : ℝ) / c ^ 2 := by
  induction v with
  | nil => simp [sqNormL, dotL]
  | cons a v ih =>
    show (a : ℝ) / c * ((a : ℝ) / c) + sqNormL (v.map (fun q : ℚ => (q : ℝ) / c))
        = ((a * a + dotL v v : ℚ) : ℝ) / c ^ 2
    rw [ih]
    rw [div_mul_div_comm, ← sq c, div_add_div_same]
    simp only [sqNormL]
    push_cast
    ring

theorem dotL_scaled_ones (c : ℝ) :
    ∀ (v : List ℚ) (n : ℕ), v.length ≤ n →
      dotL (v.map (fun q : ℚ => (q : ℝ) / c)) (List.replicate n (1 : ℝ))
        = ((v.sum : ℚ) : ℝ) / c := by
  intro v
  induction v with
  | nil => intro n _; simp [dotL_nil_right, dotL]
  | cons a v ih =>
    intro n hn
    cases n with
    | zero => simp at hn
    | succ m =>
      have hm : v.length ≤ m := by simpa using hn
      rw [List.replicate_succ]
      show (a : ℝ) / c * 1 + dotL (v.map (fun q : ℚ => (q : ℝ) / c)) (List.replicate m 1)
          = ((a + v.sum : ℚ) : ℝ) / c
      rw [ih m hm, mul_one, div_add_div_same]
      push_cast
      ring_nf

theorem basisRow_sum (d i : ℕ) : (basisRow d i).sum = 0 := by
  simp [basisRow, List.sum_replicate, nsmul_eq_mul]

theorem zero_sum_projection_getD (d i : ℕ) (h1 : 1 ≤ i) (hi : i < d) :
    (zero_sum_projection d).getD (i - 1) []
      = (basisRow d i).map
          (fun x : ℚ => (x : ℝ) / Real.sqrt ((sqNormL (basisRow d i) : ℚ) : ℝ)) := by
  unfold zero_sum_projection zsBasis
  rw [List.map_map]
  have hlt : i - 1 < ((List.range' 1 (d - 1)).map
      ((fun v : List ℚ => v.map
        (fun x : ℚ => (x : ℝ) / Real.sqrt ((sqNormL v : ℚ) : ℝ))) ∘ basisRow d)).length := by
    simp
    omega
  rw [List.getD_eq_getElem _ _ hlt, List.getElem_map, List.getElem_range'_1]
  have h1i : 1 + (i - 1) = i := by omega
  rw [h1i]
  rfl

/-- C3: for `d ≥ 2` and `1 ≤ i < d`, `zero_sum_projection d` is a
`(d-1) × d` matrix whose `i`-th row is the vector of `i` copies of `1`, one
copy of `-i` and `d-i-1` copies of `0` divided by its Euclidean norm
(`Real.sqrt` of its squared norm `i + i^2`); that row has unit norm and is
orthogonal to the all-ones vector. -/
theorem zero_sum_projection_rows (d i : ℕ) (hd : 2 ≤ d) (h1 : 1 ≤ i) (hi : i < d) :
    (zero_sum_projection d).length = d - 1 ∧
    (∀ r ∈ zero_sum_projection d, r.length = d) ∧
    (zero_sum_projection d).getD (i - 1) []
        = (List.replicate i (1 : ℚ) ++ [-(i : ℚ)] ++ List.replicate (d - i - 1) 0).map
            (fun x : ℚ => (x : ℝ) / Real.sqrt ((sqNormL (basisRow d i) : ℚ) : ℝ)) ∧
    sqNormL (basisRow d i) = (i : ℚ) + (i : ℚ) ^ 2 ∧
    sqNormL ((zero_sum_projection d).getD (i - 1) []) = 1 ∧
    dotL ((zero_sum_projection d).getD (i - 1) []) (List.replicate d (1 : ℝ)) = 0 := by
  have hpos : (0 : ℚ) < sqNormL (basisRow d i) := by
    rw [sqNormL_basisRow]
    have : (1 : ℚ) ≤ (i : ℚ) := by exact_mod_cast h1
    nlinarith
  refine ⟨?_, ?_, zero_sum_projection_getD d i h1 hi, sqNormL_basisRow d i, ?_, ?_⟩
  · simp [zero_sum_projection, zsBasis]
  · intro r hr
    unfold zero_sum_projection zsBasis at hr
    rw [List.map_map] at hr
    obtain ⟨j, hj, rfl⟩ := List.mem_map.mp hr
    rw [List.mem_range'_1] at hj
    have hjd : j < d := by omega
    simp [basisRow_length d j hjd]
  · rw [zero_sum_projection_getD d i h1 hi, sqNormL_scaledRow,
      Real.sq_sqrt (by exact_mod_cast (sqNormL_nonneg (basisRow d i)))]
    rw [div_self]
    exact_mod_cast ne_of_gt hpos
  · rw [zero_sum_projection_getD d i h1 hi,
      dotL_scaled_ones _ (basisRow d i) d (le_of_eq (basisRow_length d i hi)),
      basisRow_sum]
    simp

/-- Witness for C3 at `d = 3`, `i = 1`. -/
theorem zero_sum_projection_rows_witness :
    2 ≤ 3 ∧ 1 ≤ 1 ∧ 1 < 3 ∧
      ((zero_sum_projection 3).length = 3 - 1 ∧
        (∀ r ∈ zero_sum_projection 3, r.length = 3) ∧
        (zero_sum_projection 3).getD 0 []
            = (List.replicate 1 (1 : ℚ) ++ [-(1 : ℚ)] ++ List.replicate 1 0).map
                (fun x : ℚ => (x : ℝ) / Real.sqrt ((sqNormL (basisRow 3 1) : ℚ) : ℝ)) ∧
        sqNormL (basisRow 3 1) = (1 : ℚ) + (1 : ℚ) ^ 2 ∧
        sqNormL ((zero_sum_projection 3).getD 0 []) = 1 ∧
        dotL ((zero_sum_projection 3).getD 0 []) (List.replicate 3 (1 : ℝ)) = 0) :=
  ⟨by decide, by decide, by decide,
    zero_sum_projection_rows 3 1 (by decide) (by decide) (by decide)⟩

theorem sqNormL_basisRow_succ (d i : ℕ) (hi : i < d) :
    sqNormL (basisRow (d + 1) i) = sqNormL (basisRow d i) := by
  rw [sqNormL_basisRow, sqNormL_basisRow]

theorem coherence_row (d i : ℕ) (w : List ℚ) (a : ℚ)
    (hi : i < d) (hw : w.length = d) :
    dotL ((basisRow (d + 1) i).map
        (fun x : ℚ => (x : ℝ) / Real.sqrt ((sqNormL (basisRow (d + 1) i) : ℚ) : ℝ)))
      (castList (w ++ [a]))
      = dotL ((basisRow d i).map
          (fun x : ℚ => (x : ℝ) / Real.sqrt ((sqNormL (basisRow d i) : ℚ) : ℝ)))
        (castList w) := by
  rw [sqNormL_basisRow_succ d i hi, basisRow_succ d i hi]
  have hcast : castList (w ++ [a]) = castList w ++ [(a : ℝ)] := by
    simp [castList]
  rw [hcast, List.map_append]
  simp only [List.map_cons, List.map_nil]
  rw [dotL_concat _ _ _ _ (by simp [castList, basisRow_length d i hi, hw])]
  simp

/-- C4: projection coherence across dimensions — for any vector `w ++ [a]`,
the first `|w| - 1` components of its image under
`zero_sum_projection (|w| + 1)` equal the image of `w` under
`zero_sum_projection |w|` (exactly, with the identity as the global
rotation), and these are the images computed by `project_points`. -/
theorem project_points_coherence (w : List ℚ) (a : ℚ) :
    (matVecL (zero_sum_projection (w.length + 1)) (castList (w ++ [a]))).take
        (w.length - 1)
      = matVecL (zero_sum_projection w.length) (castList w) ∧
    project_points [w ++ [a]]
      = [matVecL (zero_sum_projection (w.length + 1)) (castList (w ++ [a]))] ∧
    project_points [w] = [matVecL (zero_sum_projection w.length) (castList w)] := by
  refine ⟨?_, by simp [project_points], by simp [project_points]⟩
  set d := w.length with hd
  cases hed : d with
  | zero =>
    have hw : w = [] := List.length_eq_zero.mp (by rw [← hd, hed])
    subst hw
    simp [matVecL, zero_sum_projection, zsBasis] at *
  | succ e =>
    unfold matVecL zero_sum_projection zsBasis
    rw [List.map_map, List.map_map, List.map_map, List.map_map]
    simp only [Nat.add_sub_cancel]
    have htake : (List.range' 1 (e + 1)).take e = List.range' 1 e := by
      rw [List.range'_1_concat]
      exact List.take_left' (by simp)
    rw [← List.map_take, htake]
    apply List.map_congr_left
    intro i hi
    rw [List.mem_range'_1] at hi
    have hid : i < e + 1 := by omega
    have hwl : w.length = e + 1 := by rw [← hd, hed]
    simp only [Function.comp_apply]
    exact coherence_row (e + 1) i w a hid hwl

/-- The orbit-expansion pattern shared by the recipes (`library.py` lines
877-880, 432 and 1047-1049): apply every group element to every seed, with
the group element as the outer loop and no deduplication. -/
def expand {α : Type} (seeds : List α) (group : List (α → α)) : List α :=
  (group.map (fun p => seeds.map p)).flatten

/-- Modelled from the spec: the insertion order the spec describes, with the
seed index as the outer loop and the group-element index as the inner loop.
Used only to compare the spec's claimed ordering with the code's. -/
def expandSeedOuter {α : Type} (seeds : List α) (group : List (α → α)) : List α :=
  (seeds.map (fun s => group.map (fun p => p s))).flatten

/-- A Sage permutation `σ` of `{1, 2, 3}` acting on a coordinate tuple:
position `k` of the result holds coordinate `σ(k)` (`library.py` line 878). -/
def applyPerm (σ : List ℕ) (v : List ℤ) : List ℤ := σ.map (fun k => v.getD (k - 1) 0)

/-- `Permutations(3)` in Sage's lexicographic iteration order. -/
def permutations3 : List (List ℕ) :=
  [[1, 2, 3], [1, 3, 2], [2, 1, 3], [2, 3, 1], [3, 1, 2], [3, 2, 1]]

/-- All six coordinate permutations of three coordinates, as functions. -/
def perms3Action : List (List ℤ → List ℤ) := permutations3.map applyPerm

/-- C2 counterexample: expanding the single seed `(1,1,-1)` under all six
permutations of three coordinates yields six entries containing duplicates,
not the three distinct vectors the claim states. -/
theorem expand_duplicates_cex :
    (expand [[(1 : ℤ), 1, -1]] perms3Action).length = 6 ∧
    ¬ (expand [[(1 : ℤ), 1, -1]] perms3Action).Nodup := by decide

theorem mem_expand {α : Type} (seeds : List α) (group : List (α → α)) (x : α) :
    x ∈ expand seeds group ↔ ∃ g ∈ group, ∃ s ∈ seeds, x = g s := by
  unfold expand
  rw [List.mem_flatten]
  constructor
  · rintro ⟨l, hl, hx⟩
    obtain ⟨g, hg, rfl⟩ := List.mem_map.mp hl
    obtain ⟨s, hs, rfl⟩ := List.mem_map.mp hx
    exact ⟨g, hg, s, hs, rfl⟩
  · rintro ⟨g, hg, s, hs, rfl⟩
    exact ⟨seeds.map g, List.mem_map_of_mem _ hg, List.mem_map_of_mem _ hs⟩

/-- C2 (amended): for a group action containing the identity (and closed
under composition), the expansion contains every seed and its entries are
exactly the orbit of the seeds; it may however list duplicates — the seed
`(1,1,-1)` under all permutations of three coordinates yields a list whose
distinct entries are exactly the three distinct permutations. -/
theorem expand_orbit_props {α : Type} (seeds : List α) (group : List (α → α))
    (hid : (fun v : α => v) ∈ group)
    (hcomp : ∀ g ∈ group, ∀ h ∈ group, (fun v => g (h v)) ∈ group) :
    (∀ s ∈ seeds, s ∈ expand seeds group) ∧
    (∀ x, x ∈ expand seeds group ↔ ∃ g ∈ group, ∃ s ∈ seeds, x = g s) ∧
    (expand [[(1 : ℤ), 1, -1]] perms3Action).toFinset
      = {[1, 1, -1], [1, -1, 1], [-1, 1, 1]} := by
  refine ⟨?_, fun x => mem_expand seeds group x, by decide⟩
  intro s hs
  exact (mem_expand seeds group s).mpr ⟨_, hid, s, hs, rfl⟩

/-- Witness for C2 (amended) with the singleton identity action. -/
theorem expand_orbit_props_witness :
    ((fun v : List ℤ => v) ∈ [fun v : List ℤ => v]) ∧
    (∀ g ∈ [fun v : List ℤ => v], ∀ h ∈ [fun v : List ℤ => v],
        (fun v => g (h v)) ∈ [fun v : List ℤ => v]) ∧
    ((∀ s ∈ [[(5 : ℤ), 7]], s ∈ expand [[(5 : ℤ), 7]] [fun v : List ℤ => v]) ∧
      (∀ x, x ∈ expand [[(5 : ℤ), 7]] [fun v : List ℤ => v] ↔
          ∃ g ∈ [fun v : List ℤ => v], ∃ s ∈ [[(5 : ℤ), 7]], x = g s) ∧
      (expand [[(1 : ℤ), 1, -1]] perms3Action).toFinset
        = {[1, 1, -1], [1, -1, 1], [-1, 1, 1]}) :=
  ⟨by simp, by simp,
    expand_orbit_props [[(5 : ℤ), 7]] [fun v => v] (by simp) (by simp)⟩

/-- C7 counterexample: with two seeds and the six coordinate permutations,
the code's insertion order (group element as outer loop) differs from the
order the claim states (seed as outer loop). -/
theorem expand_order_cex :
    expand [[(1 : ℤ), 0, 0], [0, 1, 0]] perms3Action
      ≠ expandSeedOuter [[(1 : ℤ), 0, 0], [0, 1, 0]] perms3Action := by decide

theorem expand_cons {α : Type} (seeds : List α) (g : α → α) (gs : List (α → α)) :
    expand seeds (g :: gs) = seeds.map g ++ expand seeds gs := rfl

theorem expand_length {α : Type} (seeds : List α) :
    ∀ group : List (α → α), (expand seeds group).length = group.length * seeds.length := by
  intro group
  induction group with
  | nil => simp [expand]
  | cons g gs ih =>
    rw [expand_cons, List.length_append, List.length_map, ih, List.length_cons]
    ring

theorem getD_map_of_lt {α : Type} (x₀ : α) (g : α → α) (seeds : List α) (j : ℕ)
    (hj : j < seeds.length) :
    (seeds.map g).getD j x₀ = g (seeds.getD j x₀) := by
  rw [List.getD_eq_getElem _ _ (by simpa using hj), List.getElem_map,
    List.getD_eq_getElem _ _ hj]

theorem expand_getD {α : Type} (x₀ : α) (seeds : List α) :
    ∀ (group : List (α → α)) (i j : ℕ), i < group.length → j < seeds.length →
      (expand seeds group).getD (i * seeds.length + j) x₀
        = (group.getD i id) (seeds.getD j x₀) := by
  intro group
  induction group with
  | nil => intro i j hi _; simp at hi
  | cons g gs ih =>
    intro i j hi hj
    cases i with
    | zero =>
      rw [expand_cons, List.getD_append _ _ _ _ (by simpa using hj)]
      simpa using getD_map_of_lt x₀ g seeds j hj
    | succ i' =>
      rw [expand_cons,
        List.getD_append_right _ _ _ _ (by simp [List.length_map]; nlinarith)]
      have harith : i'.succ * seeds.length + j - (seeds.map g).length
          = i' * seeds.length + j := by
        simp [List.length_map]
        ring_nf
        omega
      rw [harith, ih i' j (by simpa using hi) hj]
      simp

/-- C7 (amended): the vertex list produced by the expansion pattern is in
insertion order with the GROUP-ELEMENT index as the outer loop and the seed
index as the inner loop (entry `i * |S| + j` is element `i` applied to seed
`j`), it has `|G| * |S|` entries, and expanding under the action containing
only the identity returns exactly the seed list in its original order. -/
theorem expand_insertion_order {α : Type} (x₀ : α) (seeds : List α)
    (group : List (α → α)) (i j : ℕ) (hi : i < group.length)
    (hj : j < seeds.length) :
    (expand seeds group).length = group.length * seeds.length ∧
    (expand seeds group).getD (i * seeds.length + j) x₀
      = (group.getD i id) (seeds.getD j x₀) ∧
    expand seeds [fun v => v] = seeds := by
  refine ⟨expand_length seeds group, expand_getD x₀ seeds group i j hi hj, ?_⟩
  simp [expand]

/-- Witness for C7 (amended) at seeds `[(1,0,0),(0,1,0)]`, the permutation
action, `i = 1`, `j = 1`. -/
theorem expand_insertion_order_witness :
    1 < perms3Action.length ∧ 1 < ([[(1 : ℤ), 0, 0], [0, 1, 0]]).length ∧
    ((expand [[(1 : ℤ), 0, 0], [0, 1, 0]] perms3Action).length
        = perms3Action.length * ([[(1 : ℤ), 0, 0], [0, 1, 0]]).length ∧
      (expand [[(1 : ℤ), 0, 0], [0, 1, 0]] perms3Action).getD
          (1 * ([[(1 : ℤ), 0, 0], [0, 1, 0]]).length + 1) []
        = (perms3Action.getD 1 id) (([[(1 : ℤ), 0, 0], [0, 1, 0]]).getD 1 []) ∧
      expand [[(1 : ℤ), 0, 0], [0, 1, 0]] [fun v => v]
        = [[(1 : ℤ), 0, 0], [0, 1, 0]]) :=
  ⟨by decide, by decide,
    expand_insertion_order [] [[(1 : ℤ), 0, 0], [0, 1, 0]] perms3Action 1 1
      (by decide) (by decide)⟩

/-- C8 counterexample: the expansion pattern applied with an explicitly empty
group action returns the empty vertex list — no error is raised, and the
seeds are not returned unchanged either. -/
theorem expand_empty_group_cex :
    expand [[(1 : ℤ), 1, -1]] ([] : List (List ℤ → List ℤ)) = [] ∧
    ([] : List (List ℤ)) ≠ [[(1 : ℤ), 1, -1]] := by decide

/-- C8 (amended): expansion with an empty group action returns the empty
list, for every seed set; no error is raised. -/
theorem expand_empty_group {α : Type} (seeds : List α) :
    expand seeds ([] : List (α → α)) = [] := rfl

/-- An element `a + b * sqrt5` of the quadratic field `QQ(sqrt5)` selected by
`icosahedron` when `exact=True` and no base ring is given
(`library.py` lines 417-422), represented by its rational coordinates. -/
abbrev QF5 : Type := ℚ × ℚ

def qf5Add (x y : QF5) : QF5 := (x.1 + y.1, x.2 + y.2)

def qf5Smul (c : ℚ) (x : QF5) : QF5 := (c * x.1, c * x.2)

def qf5One : QF5 := (1, 0)

def qf5Zero : QF5 := (0, 0)

/-- The generator `sqrt5 = K.gen()` of `QuadraticField(5, 'sqrt5')`. -/
def sqrt5K : QF5 := (0, 1)

/-- The golden ratio `g = (1 + sqrt5)/2` computed exactly in `QQ(sqrt5)`
(`library.py` line 421). -/
def gK : QF5 := qf5Smul (1 / 2) (qf5Add qf5One sqrt5K)

/-- Numeric value in `ℝ` of a `QQ(sqrt5)` element. -/
noncomputable def qf5toR (x : QF5) : ℝ := (x.1 : ℝ) + (x.2 : ℝ) * Real.sqrt 5

/-- The arithmetic domains appearing in `icosahedron`'s ring selection. -/
inductive IcoDomain : Type
  | sqrt5Field
  | rdf
  | qq
deriving DecidableEq

/-- Ring-selection logic of `icosahedron` (`library.py` lines 417-426): with
no explicit ring, `exact=True` selects `QQ(sqrt5)` and `exact=False` selects
the real double field; an explicitly supplied ring is kept. -/
def icoRing (exact : Bool) (base_ring : Option IcoDomain) : IcoDomain :=
  match base_ring, exact with
  | none, true => IcoDomain.sqrt5Field
  | none, false => IcoDomain.rdf
  | some r, _ => r

/-- The golden ratio of the `exact=False` branch, computed by a numeric
square root in the real double field; modelled as the exact real value
(floating rounding is not modelled). -/
noncomputable def gRDF : ℝ := (1 + Real.sqrt 5) / 2

/-- The four seed points `[0, s1/2, s2*g/2]` of `icosahedron`
(`library.py` lines 428-431), with the sign pairs in the order of
`itertools.product([1, -1], repeat=2)`. -/
def icoPts : List (List QF5) :=
  ([(1, 1), (1, -1), (-1, 1), (-1, -1)] : List (ℚ × ℚ)).map
    (fun s => [qf5Zero, qf5Smul (s.1 / 2) qf5One, qf5Smul (s.2 / 2) gK])

/-- The even permutations of three coordinates (`AlternatingGroup(3)`),
acting on coordinate triples by cyclic rotation. -/
def a3Action : List (List QF5 → List QF5) :=
  [fun v => v,
    fun v => match v with | [x, y, z] => [z, x, y] | l => l,
    fun v => match v with | [x, y, z] => [y, z, x] | l => l]

/-- The 12 vertices of the icosahedron over `QQ(sqrt5)`
(`library.py` line 432), produced by the shared expansion pattern. -/
def icoVertsK : List (List QF5) := expand icoPts a3Action

/-- Coercion of one `QQ(sqrt5)` element into `QQ` at assembly time: fails
with `DomainMismatch` (the spec's name for the observed
`TypeError: unable to convert 1/4*sqrt(5) + 1/4 to a rational`) exactly when
the `sqrt5` coefficient is nonzero. -/
def toQQ (x : QF5) : Except String ℚ :=
  if x.2 = 0 then Except.ok x.1 else Except.error "DomainMismatch"

def coerceVec : List QF5 → Except String (List ℚ)
  | [] => Except.ok []
  | x :: xs =>
    match toQQ x, coerceVec xs with
    | Except.ok a, Except.ok as => Except.ok (a :: as)
    | Except.error e, _ => Except.error e
    | _, Except.error e => Except.error e

def coerceVerts : List (List QF5) → Except String (List (List ℚ))
  | [] => Except.ok []
  | v :: vs =>
    match coerceVec v, coerceVerts vs with
    | Except.ok a, Except.ok as => Except.ok (a :: as)
    | Except.error e, _ => Except.error e
    | _, Except.error e => Except.error e

/-- `icosahedron(base_ring=QQ)`: the vertex list is computed in full and only
the assembly-time coercion of the coordinates into `QQ` can fail. -/
def icosahedronQQ : Except String (List (List ℚ)) := coerceVerts icoVertsK

instance exceptDecEq {ε α : Type} [DecidableEq ε] [DecidableEq α] :
    DecidableEq (Except ε α) := fun a b =>
  match a, b with
  | Except.ok x, Except.ok y => decidable_of_iff (x = y) (by simp)
  | Except.error e, Except.error f => decidable_of_iff (e = f) (by simp)
  | Except.ok _, Except.error _ => isFalse (by simp)
  | Except.error _, Except.ok _ => isFalse (by simp)

/-- C5: `icosahedron` with `exact=True` and no explicit ring selects the
quadratic extension `QQ(sqrt5)` and computes the golden ratio exactly in it
(`gK = 1/2 + 1/2*sqrt5`, whose real value `(1+sqrt5)/2` is irrational, so no
subfield of `QQ` itself can hold it); with `exact=False` and no explicit
ring it selects the real double field and computes the constant by a numeric
square root. -/
theorem icosahedron_domain_selection :
    icoRing true none = IcoDomain.sqrt5Field ∧
    gK = (1 / 2, 1 / 2) ∧
    qf5toR gK = (1 + Real.sqrt 5) / 2 ∧
    Irrational (qf5toR gK) ∧
    icoRing false none = IcoDomain.rdf ∧
    gRDF = (1 + Real.sqrt 5) / 2 := by
  have hgk : gK = (1 / 2, 1 / 2) := by
    unfold gK qf5Smul qf5Add qf5One sqrt5K
    norm_num
  have h5 : Irrational (Real.sqrt 5) := by
    have h : ((5 : ℕ) : ℝ) = (5 : ℝ) := by norm_num
    rw [← h]
    exact Nat.prime_five.irrational_sqrt
  have hg : qf5toR gK = ((1 / 2 : ℚ) : ℝ) + ((1 / 2 : ℚ) : ℝ) * Real.sqrt 5 := by
    rw [hgk]
    rfl
  refine ⟨rfl, hgk, ?_, ?_, rfl, rfl⟩
  · rw [hg]
    push_cast
    ring
  · rw [hg]
    exact (h5.rat_mul (by norm_num)).rat_add (1 / 2)

/-- C6: with the explicit rational domain, `icosahedron`'s domain
construction and seed/vertex computation succeed (the golden ratio is
computed, and all 12 vertices are produced, each containing a coordinate
with a nonzero `sqrt5` part), and the failure is the assembly-time
`DomainMismatch` error raised when those irrational coordinates are coerced
into the supplied domain. -/
theorem icosahedron_rational_mismatch :
    gK = (1 / 2, 1 / 2) ∧
    icoVertsK.length = 12 ∧
    (∀ v ∈ icoVertsK, ∃ x ∈ v, x.2 ≠ 0) ∧
    icosahedronQQ = Except.error "DomainMismatch" := by
  with_unfolding_all decide

/-- `regular_polygon` (`library.py` lines 183-240): `n = ZZ(n)` is rejected
with a `ValueError` when `n ≤ 2`, before any domain selection or vertex
computation; otherwise the `n` vertices `(sin(i*omega), cos(i*omega))` with
`omega = 2*pi/n`, `i = 0..n-1`, are produced. -/
noncomputable def regular_polygon (n : ℤ) : Except String (List (ℝ × ℝ)) :=
  if n ≤ 2 then Except.error "ValueError"
  else Except.ok ((List.range n.toNat).map
    (fun i : ℕ => (Real.sin ((i : ℝ) * (2 * Real.pi / n)),
      Real.cos ((i : ℝ) * (2 * Real.pi / n)))))

theorem sin_cos_angle_inj (n : ℤ) (hn : 2 < n) (i j : ℕ)
    (hi : i < n.toNat) (hj : j < n.toNat)
    (hsin : Real.sin (i * (2 * Real.pi / n)) = Real.sin (j * (2 * Real.pi / n)))
    (hcos : Real.cos (i * (2 * Real.pi / n)) = Real.cos (j * (2 * Real.pi / n))) :
    i = j := by
  set u : ℝ := 2 * Real.pi / n with hu
  have hexp : Complex.exp ((((i : ℝ) * u : ℝ) : ℂ) * Complex.I)
      = Complex.exp ((((j : ℝ) * u : ℝ) : ℂ) * Complex.I) := by
    rw [Complex.exp_mul_I, Complex.exp_mul_I, ← Complex.ofReal_cos,
      ← Complex.ofReal_sin, ← Complex.ofReal_cos, ← Complex.ofReal_sin,
      hsin, hcos]
  obtain ⟨k, hk⟩ := Complex.exp_eq_exp_iff_exists_int.mp hexp
  have hk' : ((((i : ℝ) * u : ℝ) : ℂ)) * Complex.I
      = ((((j : ℝ) * u + k * (2 * Real.pi) : ℝ) : ℂ)) * Complex.I := by
    rw [hk]
    push_cast
    ring
  have hC := mul_right_cancel₀ Complex.I_ne_zero hk'
  have hR : (i : ℝ) * u = (j : ℝ) * u + k * (2 * Real.pi) :=
    Complex.ofReal_injective hC
  have hn0 : (n : ℝ) ≠ 0 := by
    have : (0 : ℤ) < n := by omega
    exact_mod_cast ne_of_gt this
  have h2pi : (n : ℝ) * u = 2 * Real.pi := by
    rw [hu]
    field_simp
  have hu0 : u ≠ 0 := by
    rw [hu]
    have hpi := Real.pi_ne_zero
    positivity
  have hlin : ((i : ℝ) - (j : ℝ) - (k : ℝ) * (n : ℝ)) * u = 0 := by
    have : (k : ℝ) * ((n : ℝ) * u) = (k : ℝ) * (2 * Real.pi) := by rw [h2pi]
    nlinarith [hR, this]
  have hzero : (i : ℝ) - (j : ℝ) - (k : ℝ) * (n : ℝ) = 0 :=
    by
      rcases mul_eq_zero.mp hlin with h | h
      · exact h
      · exact absurd h hu0
  have hZ : (i : ℤ) - (j : ℤ) - k * n = 0 := by exact_mod_cast hzero
  have hiZ : (i : ℤ) < n := by omega
  have hjZ : (j : ℤ) < n := by omega
  have hk0 : k = 0 := by
    rcases lt_trichotomy k 0 with hlt | heq | hgt
    · have hp : (0 : ℤ) ≤ (-(k + 1)) * n := mul_nonneg (by omega) (by omega)
      have h2 : k * n ≤ -n := by nlinarith [hp]
      omega
    · exact heq
    · have hp : (0 : ℤ) ≤ (k - 1) * n := mul_nonneg (by omega) (by omega)
      have h2 : n ≤ k * n := by nlinarith [hp]
      omega
  rw [hk0] at hZ
  have : (i : ℤ) = (j : ℤ) := by
    have h0 : (0 : ℤ) * n = 0 := zero_mul n
    omega
  exact_mod_cast this

/-- C10: `regular_polygon n` raises a `ValueError` for every integer
`n ≤ 2`, before any domain selection or vertex computation takes place; for
every integer `n > 2` it produces exactly `n` pairwise distinct vertices. -/
theorem regular_polygon_spec (n : ℤ) :
    (n ≤ 2 → regular_polygon n = Except.error "ValueError") ∧
    (2 < n → ∃ verts, regular_polygon n = Except.ok verts ∧
      verts.length = n.toNat ∧ verts.Nodup) := by
  constructor
  · intro h
    simp [regular_polygon, h]
  · intro h
    have hn : ¬ n ≤ 2 := by omega
    refine ⟨(List.range n.toNat).map
        (fun i : ℕ => (Real.sin ((i : ℝ) * (2 * Real.pi / n)),
          Real.cos ((i : ℝ) * (2 * Real.pi / n)))), ?_, by simp, ?_⟩
    · simp [regular_polygon, hn]
    refine List.Nodup.map_on ?_ (List.nodup_range _)
    intro i hi j hj hfeq
    rw [List.mem_range] at hi hj
    exact sin_cos_angle_inj n h i j hi hj
      (congrArg Prod.fst hfeq) (congrArg Prod.snd hfeq)

/-- Witness for C10 at `n = 1` (rejected) and `n = 5` (accepted). -/
theorem regular_polygon_spec_witness :
    ((1 : ℤ) ≤ 2 ∧ regular_polygon 1 = Except.error "ValueError") ∧
    ((2 : ℤ) < 5 ∧ ∃ verts, regular_polygon 5 = Except.ok verts ∧
      verts.length = (5 : ℤ).toNat ∧ verts.Nodup) :=
  ⟨⟨by decide, (regular_polygon_spec 1).1 (by decide)⟩,
    ⟨by decide, (regular_polygon_spec 5).2 (by decide)⟩⟩

end SageLib
